import Mathlib

/-!
Verification of the `lg` journaling CLI (TypeScript) against its
natural-language specification.

Shallow embedding conventions:
* `LogEntry` mirrors `interface LogEntry { timestamp: string; content: string }`
  (src/types/log.ts); `Storage` mirrors `type Storage = LogEntry[]`.
* JavaScript's `String.prototype.localeCompare` is modelled as ordinal
  (code-point lexicographic) string comparison `strLe`.
* `Array.prototype.sort` (guaranteed stable since ES2019) is modelled as
  `List.mergeSort`, Lean's stable sort, applied to the matching Bool
  comparator.
* `new Date(s).getTime()` is modelled as an arbitrary parse function
  `pt : String → Int` (NaN-producing inputs are outside the model).
* Effectful network code is modelled by passing the environment explicitly
  (configuration, connectivity flag, remote fetch result) and recording the
  payload pushed to the remote in the output.
-/

namespace LG

/-- Model of `LogEntry` from src/types/log.ts: a timestamp (ISO string) and
the logged text. -/
structure LogEntry where
  timestamp : String
  content : String
deriving DecidableEq, Repr

/-- Model of `Storage` from src/types/log.ts: the ordered JSON array of
entries. -/
abbrev Storage := List LogEntry

/-! ### Ordinal string comparison (model of `localeCompare`) -/

/-- Lexicographic `≤` on character lists by code points; models the ordinal
behaviour of `a.localeCompare(b) <= 0`. -/
def listLe : List Char → List Char → Bool
  | [], _ => true
  | _ :: _, [] => false
  | a :: as, b :: bs => if a < b then true else if b < a then false else listLe as bs

/-- `strLe a b` models `a.localeCompare(b) <= 0` (ordinal semantics). -/
def strLe (a b : String) : Bool := listLe a.data b.data

theorem listLe_refl : ∀ l : List Char, listLe l l = true
  | [] => rfl
  | a :: as => by simp [listLe, listLe_refl as]

theorem strLe_refl (s : String) : strLe s s = true := listLe_refl s.data

theorem listLe_total : ∀ x y : List Char, (listLe x y || listLe y x) = true
  | [], _ => by simp [listLe]
  | _ :: _, [] => by simp [listLe]
  | a :: as, b :: bs => by
    by_cases hab : a < b
    · simp [listLe, hab]
    · by_cases hba : b < a
      · simp [listLe, hab, hba]
      · simpa [listLe, hab, hba] using listLe_total as bs

theorem strLe_total (x y : String) : (strLe x y || strLe y x) = true :=
  listLe_total x.data y.data

theorem listLe_trans : ∀ x y z : List Char,
    listLe x y = true → listLe y z = true → listLe x z = true
  | [], _, _, _, _ => rfl
  | _ :: _, [], _, h, _ => by simp [listLe] at h
  | _ :: _, _ :: _, [], _, h => by simp [listLe] at h
  | a :: as, b :: bs, c :: cs, h1, h2 => by
    by_cases hab : a < b
    · by_cases hbc : b < c
      · simp [listLe, lt_trans hab hbc]
      · by_cases hcb : c < b
        · simp [listLe, hbc, hcb] at h2
        · have hbc' : b = c := le_antisymm (not_lt.mp hcb) (not_lt.mp hbc)
          subst hbc'
          simp [listLe, hab]
    · by_cases hba : b < a
      · simp [listLe, hab, hba] at h1
      · have hab' : a = b := le_antisymm (not_lt.mp hba) (not_lt.mp hab)
        subst hab'
        simp only [listLe, if_neg (lt_irrefl a)] at h1 ⊢
        by_cases hac : a < c
        · simp [hac]
        · by_cases hca : c < a
          · simp [listLe, hac, hca] at h2
          · simp only [listLe, if_neg hac, if_neg hca] at h2 ⊢
            exact listLe_trans as bs cs h1 h2

theorem strLe_trans (x y z : String) :
    strLe x y = true → strLe y z = true → strLe x z = true :=
  listLe_trans x.data y.data z.data

theorem listLe_antisymm : ∀ x y : List Char,
    listLe x y = true → listLe y x = true → x = y
  | [], [], _, _ => rfl
  | [], _ :: _, _, h => by simp [listLe] at h
  | _ :: _, [], h, _ => by simp [listLe] at h
  | a :: as, b :: bs, h1, h2 => by
    by_cases hab : a < b
    · simp [listLe, hab, asymm hab] at h2
    · by_cases hba : b < a
      · simp [listLe, hab, hba] at h1
      · have hab' : a = b := le_antisymm (not_lt.mp hba) (not_lt.mp hab)
        subst hab'
        simp only [listLe, if_neg (lt_irrefl a)] at h1 h2
        rw [listLe_antisymm as bs h1 h2]

theorem strLe_antisymm {x y : String} :
    strLe x y = true → strLe y x = true → x = y := by
  intro h1 h2
  cases x with
  | mk xd =>
    cases y with
    | mk yd =>
      have := listLe_antisymm xd yd h1 h2
      simp_all

/-- If two equal-length prefixes already compare `≤`, appending arbitrary
suffixes keeps them comparable; stated in the contrapositive direction used
below: comparability of the full strings forces comparability of
equal-length prefixes. -/
theorem listLe_of_append : ∀ (x y u v : List Char), x.length = y.length →
    listLe (x ++ u) (y ++ v) = true → listLe x y = true
  | [], [], _, _, _, _ => rfl
  | [], _ :: _, _, _, h, _ => by simp at h
  | _ :: _, [], _, _, h, _ => by simp at h
  | a :: as, b :: bs, u, v, hlen, h => by
    by_cases hab : a < b
    · simp [listLe, hab]
    · by_cases hba : b < a
      · simp [listLe, hab, hba] at h
      · simp only [List.cons_append, listLe, if_neg hab, if_neg hba] at h ⊢
        exact listLe_of_append as bs u v (by simpa using hlen) h

/-! ### Date keys and grouping (src/commands/list.ts, src/commands/remove.ts) -/

/-- Model of `getDatePart` (list.ts:39, remove.ts:35): `dateString.split('T')[0]`,
i.e. the longest prefix of the string before the first `'T'`. -/
def getDatePart (s : String) : String := ⟨s.data.takeWhile (fun c => c != 'T')⟩

/-- The grouping key of an entry: `getDatePart(entry.timestamp)`. -/
def entryDate (e : LogEntry) : String := getDatePart e.timestamp

/-- Ascending comparator used by `entriesForDate.sort((a, b) =>
a.timestamp.localeCompare(b.timestamp))` (list.ts:145). -/
def tsLe (a b : LogEntry) : Bool := strLe a.timestamp b.timestamp

/-- Descending comparator used by `sort((a, b) =>
b.timestamp.localeCompare(a.timestamp))` (remove.ts:173, remove.ts:253). -/
def tsGe (a b : LogEntry) : Bool := strLe b.timestamp a.timestamp

/-- Model of the bucket `grouped[datePart]` built by `groupEntriesByDate`
(list.ts:48): entries with the given date key, in input order (the source
pushes them in `forEach` order). -/
def groupOf (entries : Storage) (d : String) : Storage :=
  entries.filter (fun e => entryDate e == d)

/-- Model of `Object.keys(groupedEntries)` (list.ts:122): the distinct date
keys occurring in the entry list.  The source yields them in first-insertion
order; every use in the source sorts them immediately afterwards, so the
set (here: `dedup`, which is duplicate-free with the same members) is what
matters. -/
def groupKeys (entries : Storage) : List String := (entries.map entryDate).dedup

/-- Comparator of `dates.sort((a, b) => options.reverse ? b.localeCompare(a)
: a.localeCompare(b))` (list.ts:123). -/
def dateLe (reverse : Bool) (a b : String) : Bool :=
  if reverse then strLe b a else strLe a b

/-- The date keys in display order (list.ts:122-125). -/
def sortedDates (entries : Storage) (reverse : Bool) : List String :=
  (groupKeys entries).mergeSort (dateLe reverse)

/-- Model of the `--limit` handling (list.ts:128-133): `dates.slice(0, limit)`
when the parsed limit is a positive number, otherwise no truncation. -/
def applyLimit (limit : Option Nat) (dates : List String) : List String :=
  match limit with
  | none => dates
  | some n => if 0 < n then dates.take n else dates

/-- One day's group in display order: ascending by timestamp (list.ts:145). -/
def dayGroupAsc (entries : Storage) (d : String) : Storage :=
  (groupOf entries d).mergeSort tsLe

/-- The full display order of the `list` command (list.ts:117-158): date keys
sorted (ascending by default, descending with `--reverse`), truncated by
`--limit`, each day's entries ascending by timestamp. -/
def listedEntries (entries : Storage) (reverse : Bool) (limit : Option Nat) : Storage :=
  (applyLimit limit (sortedDates entries reverse)).flatMap (dayGroupAsc entries)

/-! ### Remove operations (src/commands/remove.ts) -/

/-- Model of `allEntries.filter((entry) => entry.timestamp !==
entryToRemove.timestamp)` (remove.ts:232). -/
def removeByTimestamp (entries : Storage) (ts : String) : Storage :=
  entries.filter (fun e => !(e.timestamp == ts))

/-- Model of `allEntries.filter((entry) => getDatePart(entry.timestamp) !==
selectedDate)` (remove.ts:212): the "All entries for this day" branch. -/
def removeAllForDay (entries : Storage) (d : String) : Storage :=
  entries.filter (fun e => !(entryDate e == d))

/-- The per-day selection list shown by `handleDateSelection` (remove.ts:170-173):
the day's entries sorted descending by timestamp. -/
def sortedForRemoval (entries : Storage) (d : String) : Storage :=
  (groupOf entries d).mergeSort tsGe

/-- Model of removing the entry chosen at index `idx` of the selection list
(remove.ts:231-232): look up `entriesForDate[selectedEntry]` and filter all
entries sharing its timestamp out of `allEntries`. -/
def removeSelected (entries : Storage) (d : String) (idx : Nat) : Storage :=
  match (sortedForRemoval entries d)[idx]? with
  | some sel => removeByTimestamp entries sel.timestamp
  | none => entries

/-- Model of the in-place `entries.sort((a, b) =>
b.timestamp.localeCompare(a.timestamp))` of `removeLastEntry` (remove.ts:253). -/
def sortedAllDesc (entries : Storage) : Storage := entries.mergeSort tsGe

/-- Model of `entries[0]` after the descending sort (remove.ts:256): the entry
reported and removed by `removeLastEntry`. -/
def lastEntry (entries : Storage) : Option LogEntry := (sortedAllDesc entries).head?

/-- Model of the list written back by `removeLastEntry` (remove.ts:276-279):
`entries.slice(1)` of the descending-sorted array. -/
def removeLastResult (entries : Storage) : Storage := (sortedAllDesc entries).tail

/-! ### Gist synchronization (src/utils/gistSync.ts, debounced fetch-based
version) -/

/-- Model of `interface GistConfig { token: string; gistId?: string }`. -/
structure GistConfig where
  token : String
  gistId : Option String
deriving DecidableEq, Repr

/-- Model of the configuration guard `!config || !config.token ||
!config.gistId` (gistSync.ts:305, negated): `none` models an absent or
unreadable config file, and empty strings are falsy in JavaScript, so an
empty token or gist id also counts as unconfigured. -/
def configReady : Option GistConfig → Bool
  | none => false
  | some c => (!(c.token == "")) && (match c.gistId with
      | none => false
      | some g => !(g == ""))

/-- Descending comparator of `localEntries.sort((a, b) => new
Date(b.timestamp).getTime() - new Date(a.timestamp).getTime())`
(gistSync.ts:339), for a given parse function `pt` standing for
`new Date(·).getTime()`. -/
def ptGe (pt : String → Int) (a b : LogEntry) : Bool :=
  decide (pt b.timestamp ≤ pt a.timestamp)

/-- Model of the merge loop of `performFullSync` (gistSync.ts:329-336):
`existingTimestamps` is the set of timestamps of the *original* local list;
each remote entry whose timestamp is not in it is pushed onto the
accumulator. -/
def mergeRemote (existingTimestamps : List String) (acc remote : Storage) : Storage :=
  remote.foldl
    (fun cur r => if existingTimestamps.contains r.timestamp then cur else cur ++ [r]) acc

/-- Result of a full sync: the entry list returned to the caller, and the
payload sent to `updateGist` (`none` when no remote update was issued). -/
structure FullSyncOut where
  result : Storage
  pushed : Option Storage
deriving DecidableEq, Repr

/-- Model of `performFullSync` (gistSync.ts:301-355).  The effectful context
is passed explicitly: `cfg` is the loaded configuration, `online` the result
of `isInternetAvailable`, `fetched` the result of `fetchGistEntries` (`none`
models both a fetch error and a gist without the storage file).  The
`updateGist` call is assumed to succeed; its payload is recorded in
`pushed`. -/
def performFullSync (pt : String → Int) (cfg : Option GistConfig) (online : Bool)
    (fetched : Option Storage) (localEntries : Storage) : FullSyncOut :=
  if configReady cfg = false then { result := localEntries, pushed := none }
  else if online = false then { result := localEntries, pushed := none }
  else
    match fetched with
    | none => { result := localEntries, pushed := some localEntries }
    | some remoteEntries =>
      let existingTimestamps := localEntries.map (fun e => e.timestamp)
      let merged := mergeRemote existingTimestamps localEntries remoteEntries
      let sorted := merged.mergeSort (ptGe pt)
      { result := sorted, pushed := some sorted }

/-! ### Background sync state machine (gistSync.ts:230-281) -/

/-- `SYNC_DEBOUNCE_MS = 5000` (gistSync.ts:35). -/
def SYNC_DEBOUNCE_MS : Nat := 5000

/-- The module-level mutable state of gistSync.ts (`syncInProgress`,
`lastSyncTimestamp`), instrumented with a counter of `updateGist` calls. -/
structure SyncState where
  syncInProgress : Bool
  lastSyncTimestamp : Nat
  updateGistCalls : Nat
deriving DecidableEq, Repr

/-- The skip guard of `syncWithGistInBackground` (gistSync.ts:233):
`syncInProgress || now - lastSyncTimestamp < SYNC_DEBOUNCE_MS`. -/
def bgSkips (s : SyncState) (now : Nat) : Bool :=
  s.syncInProgress || decide (now - s.lastSyncTimestamp < SYNC_DEBOUNCE_MS)

/-- The synchronous part of `syncWithGistInBackground` invoked at time `now`
(gistSync.ts:230-242): either skip, or set `syncInProgress` and spawn the
background task. -/
def bgCall (s : SyncState) (now : Nat) : SyncState :=
  if bgSkips s now then s else { s with syncInProgress := true }

/-- The spawned async task of `syncWithGistInBackground` run to completion at
time `tFinish` (gistSync.ts:244-280): config and connectivity guards, then an
`updateGist` call; `lastSyncTimestamp` is set only on success (`updateOk`),
and `syncInProgress` is cleared on every path (the `finally`). -/
def bgTask (configured online updateOk : Bool) (s : SyncState) (tFinish : Nat) : SyncState :=
  if configured = false then { s with syncInProgress := false }
  else if online = false then { s with syncInProgress := false }
  else
    { syncInProgress := false
      lastSyncTimestamp := if updateOk then tFinish else s.lastSyncTimestamp
      updateGistCalls := s.updateGistCalls + 1 }

/-! ### General lemmas about the embedded operations -/

theorem contains_eq_decide_mem (l : List String) (s : String) :
    l.contains s = decide (s ∈ l) := by
  induction l with
  | nil => simp
  | cons a l ih =>
    by_cases h : s = a
    · subst h; simp
    · simp [List.contains_cons, ih, h, Ne.symm h]

/-- The `performFullSync` merge loop appends exactly the remote entries whose
timestamp is not among `existingTimestamps`, in remote order. -/
theorem mergeRemote_eq_append_filter (ts : List String) :
    ∀ (remote acc : Storage),
      mergeRemote ts acc remote = acc ++ remote.filter (fun r => !(ts.contains r.timestamp))
  | [], acc => by simp [mergeRemote]
  | r :: remote, acc => by
    by_cases h : ts.contains r.timestamp
    · have := mergeRemote_eq_append_filter ts remote acc
      simp_all [mergeRemote, List.foldl_cons, h]
    · have := mergeRemote_eq_append_filter ts remote (acc ++ [r])
      simp_all [mergeRemote, List.foldl_cons, h]

/-- A list can be split in only one way into a prefix of elements failing `P`
followed by a suffix of elements satisfying `P`. -/
theorem split_unique {α : Type} (P : α → Bool) :
    ∀ (x₁ y₁ x₂ y₂ : List α), x₁ ++ x₂ = y₁ ++ y₂ →
    (∀ b ∈ x₁, P b = false) → (∀ b ∈ y₁, P b = false) →
    (∀ b ∈ x₂, P b = true) → (∀ b ∈ y₂, P b = true) →
    x₁ = y₁ ∧ x₂ = y₂
  | [], [], x₂, y₂, h, _, _, _, _ => ⟨rfl, h⟩
  | [], b :: y₁, x₂, y₂, h, _, hy₁, hx₂, _ => by
    have h' : x₂ = b :: (y₁ ++ y₂) := by simpa using h
    have hb : b ∈ x₂ := by rw [h']; exact List.mem_cons_self b _
    have := hx₂ b hb
    have := hy₁ b (List.mem_cons_self b y₁)
    simp_all
  | a :: x₁, [], x₂, y₂, h, hx₁, _, _, hy₂ => by
    have h' : y₂ = a :: (x₁ ++ x₂) := by simpa using h.symm
    have ha : a ∈ y₂ := by rw [h']; exact List.mem_cons_self a _
    have := hy₂ a ha
    have := hx₁ a (List.mem_cons_self a x₁)
    simp_all
  | a :: x₁, b :: y₁, x₂, y₂, h, hx₁, hy₁, hx₂, hy₂ => by
    simp only [List.cons_append, List.cons.injEq] at h
    obtain ⟨rfl, h⟩ := h
    obtain ⟨h1, h2⟩ := split_unique P x₁ y₁ x₂ y₂ h
      (fun b hb => hx₁ b (List.mem_cons_of_mem _ hb))
      (fun b hb => hy₁ b (List.mem_cons_of_mem _ hb)) hx₂ hy₂
    exact ⟨by rw [h1], h2⟩

/-- Stability of `mergeSort` in filter form: filtering the stable sort of a
list by any predicate gives the stable sort of the filtered list. -/
theorem filter_mergeSort {α : Type} (le : α → α → Bool)
    (trans : ∀ a b c, le a b = true → le b c = true → le a c = true)
    (total : ∀ a b, (le a b || le b a) = true) (p : α → Bool) :
    ∀ l : List α, (l.mergeSort le).filter p = (l.filter p).mergeSort le
  | [] => by simp
  | a :: l => by
    obtain ⟨l₁, l₂, h1, h2, h3⟩ := List.mergeSort_cons trans total a l
    have ihl : (l.mergeSort le).filter p = (l.filter p).mergeSort le :=
      filter_mergeSort le trans total p l
    by_cases hp : p a = true
    · obtain ⟨m₁, m₂, g1, g2, g3⟩ := List.mergeSort_cons trans total a (l.filter p)
      have hsl : List.Pairwise (fun x y => le x y = true) (l₁ ++ a :: l₂) := by
        rw [← h1]; exact List.sorted_mergeSort trans total (a :: l)
      have hsm : List.Pairwise (fun x y => le x y = true) (m₁ ++ a :: m₂) := by
        rw [← g1]; exact List.sorted_mergeSort trans total (a :: l.filter p)
      have hl₂ : ∀ b ∈ l₂, le a b = true := fun b hb =>
        List.rel_of_pairwise_cons ((List.pairwise_append.mp hsl).2.1) hb
      have hm₂ : ∀ b ∈ m₂, le a b = true := fun b hb =>
        List.rel_of_pairwise_cons ((List.pairwise_append.mp hsm).2.1) hb
      have key : m₁ = List.filter p l₁ ∧ m₂ = List.filter p l₂ := by
        apply split_unique (le a ·) m₁ (List.filter p l₁) m₂ (List.filter p l₂)
        · rw [← g2, ← ihl, h2, List.filter_append]
        · intro b hb
          have := g3 b hb; simpa using this
        · intro b hb
          have := h3 b (List.mem_of_mem_filter hb); simpa using this
        · intro b hb
          exact hm₂ b hb
        · intro b hb
          exact hl₂ b (List.mem_of_mem_filter hb)
      calc ((a :: l).mergeSort le).filter p
          = (l₁ ++ a :: l₂).filter p := by rw [h1]
        _ = List.filter p l₁ ++ a :: List.filter p l₂ := by
            rw [List.filter_append, List.filter_cons_of_pos hp]
        _ = m₁ ++ a :: m₂ := by rw [key.1, key.2]
        _ = ((a :: l).filter p).mergeSort le := by
            rw [List.filter_cons_of_pos hp, g1]
    · have hp' : p a = false := by simpa using hp
      calc ((a :: l).mergeSort le).filter p
          = (l₁ ++ a :: l₂).filter p := by rw [h1]
        _ = List.filter p l₁ ++ List.filter p l₂ := by
            rw [List.filter_append, List.filter_cons_of_neg (by simp [hp'])]
        _ = (l₁ ++ l₂).filter p := by rw [List.filter_append]
        _ = (l.mergeSort le).filter p := by rw [h2]
        _ = (l.filter p).mergeSort le := ihl
        _ = ((a :: l).filter p).mergeSort le := by
            rw [List.filter_cons_of_neg (by simp [hp'])]

theorem tsLe_trans (a b c : LogEntry) :
    tsLe a b = true → tsLe b c = true → tsLe a c = true :=
  strLe_trans a.timestamp b.timestamp c.timestamp

theorem tsLe_total (a b : LogEntry) : (tsLe a b || tsLe b a) = true :=
  strLe_total a.timestamp b.timestamp

theorem tsGe_trans (a b c : LogEntry) :
    tsGe a b = true → tsGe b c = true → tsGe a c = true :=
  fun h1 h2 => strLe_trans c.timestamp b.timestamp a.timestamp h2 h1

theorem tsGe_total (a b : LogEntry) : (tsGe a b || tsGe b a) = true := by
  have := strLe_total b.timestamp a.timestamp
  simpa [tsGe, Bool.or_comm] using this

theorem dateLe_trans (r : Bool) (a b c : String) :
    dateLe r a b = true → dateLe r a b = true →
    dateLe r b c = true → dateLe r a c = true := by
  cases r <;> simp only [dateLe, if_true, if_false] <;> intro _ h1 h2
  · exact strLe_trans a b c h1 h2
  · exact strLe_trans c b a h2 h1

theorem dateLe_trans' (r : Bool) (a b c : String) :
    dateLe r a b = true → dateLe r b c = true → dateLe r a c = true :=
  fun h1 h2 => dateLe_trans r a b c h1 h1 h2

theorem dateLe_total (r : Bool) (a b : String) : (dateLe r a b || dateLe r b a) = true := by
  cases r
  · simpa [dateLe] using strLe_total a b
  · simpa [dateLe, Bool.or_comm] using strLe_total a b

theorem ptGe_trans (pt : String → Int) (a b c : LogEntry) :
    ptGe pt a b = true → ptGe pt b c = true → ptGe pt a c = true := by
  simp only [ptGe, decide_eq_true_eq]
  exact fun h1 h2 => le_trans h2 h1

theorem ptGe_total (pt : String → Int) (a b : LogEntry) :
    (ptGe pt a b || ptGe pt b a) = true := by
  simp only [ptGe, Bool.or_eq_true, decide_eq_true_eq]
  exact le_total (pt b.timestamp) (pt a.timestamp)

/-- Comparability of two timestamps forces comparability of their date keys
whenever both keys have the fixed ISO length 10 (`YYYY-MM-DD`): the date key
is a length-10 prefix, so it is decided by the first 10 characters. -/
theorem getDatePart_mono {a b : String}
    (ha : (getDatePart a).length = 10) (hb : (getDatePart b).length = 10)
    (h : strLe a b = true) : strLe (getDatePart a) (getDatePart b) = true := by
  have hla : (a.data.takeWhile (fun c => c != 'T')).length = 10 := ha
  have hlb : (b.data.takeWhile (fun c => c != 'T')).length = 10 := hb
  show listLe (a.data.takeWhile (fun c => c != 'T')) (b.data.takeWhile (fun c => c != 'T')) = true
  apply listLe_of_append _ _ (a.data.dropWhile (fun c => c != 'T'))
    (b.data.dropWhile (fun c => c != 'T'))
  · rw [hla, hlb]
  · rw [List.takeWhile_append_dropWhile, List.takeWhile_append_dropWhile]
    exact h

theorem pairwise_and {α : Type} {R S : α → α → Prop} :
    ∀ {l : List α}, l.Pairwise R → l.Pairwise S →
      l.Pairwise fun a b => R a b ∧ S a b
  | [], _, _ => List.Pairwise.nil
  | _ :: _, .cons hR hR', .cons hS hS' =>
    .cons (fun b hb => ⟨hR b hb, hS b hb⟩) (pairwise_and hR' hS')

/-- A list sorted by `le` splits as (elements satisfying `p`) ++ (elements
failing `p`) whenever failing `p` is upward closed along `le`. -/
theorem sorted_split {α : Type} (le : α → α → Bool) (p : α → Bool) :
    ∀ S : List α, List.Pairwise (fun x y => le x y = true) S →
    (∀ x ∈ S, ∀ y ∈ S, le x y = true → p x = false → p y = false) →
    S = S.filter p ++ S.filter (fun e => !(p e))
  | [], _, _ => rfl
  | x :: S, hsort, hdown => by
    have hx : ∀ y ∈ S, le x y = true := fun y hy => List.rel_of_pairwise_cons hsort hy
    by_cases hp : p x = true
    · have ih := sorted_split le p S hsort.of_cons (fun a ha b hb hab hpa =>
        hdown a (List.mem_cons_of_mem _ ha) b (List.mem_cons_of_mem _ hb) hab hpa)
      rw [List.filter_cons_of_pos hp, List.filter_cons_of_neg (by simp [hp]),
        List.cons_append, ← ih]
    · have hp' : p x = false := by simpa using hp
      have hall : ∀ y ∈ S, p y = false := fun y hy =>
        hdown x (List.mem_cons_self x S) y (List.mem_cons_of_mem _ hy) (hx y hy) hp'
      have h1 : List.filter p S = [] :=
        List.filter_eq_nil_iff.mpr (fun a ha => by simp [hall a ha])
      have h2 : List.filter (fun e => !(p e)) S = S :=
        List.filter_eq_self.mpr (fun a ha => by simp [hall a ha])
      rw [List.filter_cons_of_neg (by simp [hp']), List.filter_cons_of_pos (by simp [hp']),
        h1, h2]
      rfl

theorem flatMap_congr {α β : Type} (f g : α → List β) :
    ∀ (l : List α), (∀ a ∈ l, f a = g a) → l.flatMap f = l.flatMap g
  | [], _ => rfl
  | a :: l, h => by
    rw [List.flatMap_cons, List.flatMap_cons, h a (List.mem_cons_self a l),
      flatMap_congr f g l (fun b hb => h b (List.mem_cons_of_mem _ hb))]

/-- Concatenating, over a strictly sorted and covering key list, the
elements of a sorted list having each key, reproduces the sorted list —
provided the key map is monotone along the order. -/
theorem flat_groups_eq : ∀ (ks : List String) (S : Storage),
    List.Pairwise (fun a b => strLe a b = true ∧ a ≠ b) ks →
    (∀ e ∈ S, entryDate e ∈ ks) →
    List.Pairwise (fun x y => tsLe x y = true) S →
    (∀ x ∈ S, ∀ y ∈ S, tsLe x y = true → strLe (entryDate x) (entryDate y) = true) →
    ks.flatMap (fun k => S.filter (fun e => entryDate e == k)) = S
  | [], S, _, hcover, _, _ => by
    cases S with
    | nil => rfl
    | cons e S => exact absurd (hcover e (List.mem_cons_self e S)) (by simp)
  | k :: ks, S, hks, hcover, hsort, hmono => by
    have hsplit : S = S.filter (fun e => entryDate e == k)
        ++ S.filter (fun e => !(entryDate e == k)) := by
      apply sorted_split tsLe _ S hsort
      intro x hx y hy hxy hpx
      have hxk : entryDate x ≠ k := by simpa using hpx
      by_contra hpy
      have hyk : entryDate y = k := by
        have : (entryDate y == k) = true := by
          cases hB : (entryDate y == k) with
          | false => exact absurd hB hpy
          | true => rfl
        simpa using this
      have hxks : entryDate x ∈ ks := by
        rcases List.mem_cons.mp (hcover x hx) with h | h
        · exact absurd h hxk
        · exact h
      have hkx := List.rel_of_pairwise_cons hks hxks
      have hxy' : strLe (entryDate x) k = true := by
        rw [← hyk]; exact hmono x hx y hy hxy
      exact hkx.2 (strLe_antisymm hkx.1 hxy')
    have hcongr : ks.flatMap (fun k' => S.filter (fun e => entryDate e == k'))
        = ks.flatMap (fun k' =>
            (S.filter (fun e => !(entryDate e == k))).filter (fun e => entryDate e == k')) := by
      apply flatMap_congr
      intro k' hk'
      have hkk' : k ≠ k' := (List.rel_of_pairwise_cons hks hk').2
      rw [List.filter_filter]
      apply List.filter_congr
      intro e _
      cases hB : (entryDate e == k') with
      | false => simp
      | true =>
        have : entryDate e = k' := by simpa using hB
        simp [this, Ne.symm hkk']
    have ih := flat_groups_eq ks (S.filter (fun e => !(entryDate e == k)))
      hks.of_cons
      (by
        intro e he
        have heS := List.mem_of_mem_filter he
        have hek : entryDate e ≠ k := by
          have := List.of_mem_filter he
          simpa using this
        rcases List.mem_cons.mp (hcover e heS) with h | h
        · exact absurd h hek
        · exact h)
      (hsort.filter _)
      (fun x hx y hy hxy =>
        hmono x (List.mem_of_mem_filter hx) y (List.mem_of_mem_filter hy) hxy)
    rw [List.flatMap_cons, hcongr, ih, ← hsplit]

/-- Closed form of the `performFullSync` happy path: config ready, online,
remote fetch returned a list. -/
theorem performFullSync_result_eq (pt : String → Int) (cfg : Option GistConfig)
    (remote localEntries : Storage) (hc : configReady cfg = true) :
    (performFullSync pt cfg true (some remote) localEntries).result
      = (localEntries ++ remote.filter
          (fun r => decide (r.timestamp ∉ localEntries.map LogEntry.timestamp))).mergeSort
          (ptGe pt) := by
  have hfilter : remote.filter
        (fun r => !((localEntries.map (fun e => e.timestamp)).contains r.timestamp))
      = remote.filter
          (fun r => decide (r.timestamp ∉ localEntries.map LogEntry.timestamp)) := by
    apply List.filter_congr
    intro r _
    rw [contains_eq_decide_mem, decide_not]
  simp only [performFullSync, hc, Bool.true_eq_false, if_false, reduceIte,
    mergeRemote_eq_append_filter]
  rw [hfilter]

/-- The `pushed` payload of the `performFullSync` happy path is its result. -/
theorem performFullSync_pushed_eq (pt : String → Int) (cfg : Option GistConfig)
    (remote localEntries : Storage) (hc : configReady cfg = true) :
    (performFullSync pt cfg true (some remote) localEntries).pushed
      = some ((performFullSync pt cfg true (some remote) localEntries).result) := by
  simp [performFullSync, hc]

/-- Full sync with a remote equal to an already-descending-sorted local list
is the identity: nothing to merge, the sort does not move anything. -/
theorem performFullSync_self (pt : String → Int) (cfg : Option GistConfig)
    (m : Storage) (hc : configReady cfg = true)
    (hsorted : List.Pairwise (fun a b => ptGe pt a b = true) m) :
    performFullSync pt cfg true (some m) m = { result := m, pushed := some m } := by
  have hnil : m.filter (fun r => !((m.map (fun e => e.timestamp)).contains r.timestamp))
      = [] := by
    apply List.filter_eq_nil_iff.mpr
    intro r hr
    have : r.timestamp ∈ m.map (fun e => e.timestamp) :=
      List.mem_map.mpr ⟨r, hr, rfl⟩
    rw [contains_eq_decide_mem]
    simp [this]
  simp only [performFullSync, hc, Bool.true_eq_false, if_false, reduceIte,
    mergeRemote_eq_append_filter, hnil, List.append_nil,
    List.mergeSort_of_sorted hsorted]

/-- Pointwise permutations lift to `flatMap`. -/
theorem flatMap_perm_congr {α β : Type} (f g : α → List β) :
    ∀ l : List α, (∀ a ∈ l, (f a).Perm (g a)) → (l.flatMap f).Perm (l.flatMap g)
  | [], _ => by simp
  | a :: l, h => by
    rw [List.flatMap_cons, List.flatMap_cons]
    exact (h a (List.mem_cons_self a l)).append
      (flatMap_perm_congr f g l (fun b hb => h b (List.mem_cons_of_mem _ hb)))

/-- Filtering by a disjunction of disjoint predicates splits, up to
permutation, into the two filters. -/
theorem filter_or_perm {α : Type} (p q : α → Bool)
    (hdisj : ∀ a, p a = true → q a = false) :
    ∀ l : List α, (l.filter (fun a => p a || q a)).Perm (l.filter p ++ l.filter q)
  | [] => by simp
  | a :: l => by
    have ih := filter_or_perm p q hdisj l
    by_cases hp : p a = true
    · have hq : q a = false := hdisj a hp
      rw [List.filter_cons_of_pos (by simp [hp]), List.filter_cons_of_pos hp,
        List.filter_cons_of_neg (by simp [hq])]
      exact ih.cons a
    · have hp' : p a = false := by simpa using hp
      by_cases hq : q a = true
      · rw [List.filter_cons_of_pos (by simp [hq]), List.filter_cons_of_neg (by simp [hp']),
          List.filter_cons_of_pos hq]
        exact (ih.cons a).trans List.perm_middle.symm
      · have hq' : q a = false := by simpa using hq
        rw [List.filter_cons_of_neg (by simp [hp', hq']),
          List.filter_cons_of_neg (by simp [hp']), List.filter_cons_of_neg (by simp [hq'])]
        exact ih

/-- Bucketing a list by a duplicate-free key list and concatenating is, up to
permutation, filtering by key membership. -/
theorem flatMap_filter_perm (S : Storage) :
    ∀ ks : List String, ks.Nodup →
      (ks.flatMap (fun k => S.filter (fun e => entryDate e == k))).Perm
        (S.filter (fun e => ks.contains (entryDate e)))
  | [], _ => by simp
  | k :: ks, hnd => by
    have hk : k ∉ ks := (List.nodup_cons.mp hnd).1
    have ih := flatMap_filter_perm S ks (List.nodup_cons.mp hnd).2
    have hdisj : ∀ e : LogEntry, (entryDate e == k) = true →
        ks.contains (entryDate e) = false := by
      intro e he
      have : entryDate e = k := by simpa using he
      rw [this, contains_eq_decide_mem]
      simp [hk]
    have hcongr : S.filter (fun e => (k :: ks).contains (entryDate e))
        = S.filter (fun e => (entryDate e == k) || ks.contains (entryDate e)) := by
      apply List.filter_congr
      intro e _
      rw [List.contains_cons]
    rw [List.flatMap_cons, hcongr]
    exact (((ih).append_left (S.filter (fun e => entryDate e == k))).trans
      (filter_or_perm _ _ hdisj S).symm)

/-- The entry picked by `removeLastEntry` carries a maximal timestamp. -/
theorem lastEntry_max {entries : Storage} {e : LogEntry}
    (he : lastEntry entries = some e) :
    ∀ x ∈ entries, strLe x.timestamp e.timestamp = true := by
  intro x hx
  have hsort : List.Pairwise (fun a b => tsGe a b = true) (sortedAllDesc entries) :=
    List.sorted_mergeSort tsGe_trans tsGe_total entries
  have hx' : x ∈ sortedAllDesc entries := List.mem_mergeSort.mpr hx
  unfold lastEntry at he
  cases hS : sortedAllDesc entries with
  | nil =>
    rw [hS] at he
    cases he
  | cons a t =>
    rw [hS] at he hx' hsort
    have ha : a = e := by simpa using he
    subst ha
    rcases List.mem_cons.mp hx' with rfl | hxt
    · exact strLe_refl _
    · exact List.rel_of_pairwise_cons hsort hxt

/-- `removeLastEntry` writes back a permutation of the previous entries minus
the picked one. -/
theorem removeLast_perm {entries : Storage} {e : LogEntry}
    (he : lastEntry entries = some e) :
    (e :: removeLastResult entries).Perm entries := by
  have hperm : (sortedAllDesc entries).Perm entries := List.mergeSort_perm entries tsGe
  unfold lastEntry at he
  unfold removeLastResult
  cases hS : sortedAllDesc entries with
  | nil =>
    rw [hS] at he
    cases he
  | cons a t =>
    rw [hS] at he hperm
    have ha : a = e := by simpa using he
    subst ha
    simpa using hperm

/-! ### Claim theorems -/

/-- Claim C1: when sync is configured, the network is reachable, and the
remote fetch succeeds with a non-null entry list, `performFullSync` returns
the local list extended with exactly those remote entries whose timestamp
string is not among the local timestamps (so equal-timestamp ties keep the
local copy), stably sorted descending by parsed timestamp, and pushes
exactly this merged list to the remote. -/
theorem C1_fullSync_union_merge (pt : String → Int) (cfg : Option GistConfig)
    (remote localEntries : Storage) (hc : configReady cfg = true) :
    (performFullSync pt cfg true (some remote) localEntries).result
        = (localEntries ++ remote.filter
            (fun r => decide (r.timestamp ∉ localEntries.map LogEntry.timestamp))).mergeSort
            (ptGe pt)
  ∧ (performFullSync pt cfg true (some remote) localEntries).pushed
        = some ((performFullSync pt cfg true (some remote) localEntries).result)
  ∧ List.Pairwise (fun a b => pt b.timestamp ≤ pt a.timestamp)
        ((performFullSync pt cfg true (some remote) localEntries).result) := by
  refine ⟨performFullSync_result_eq pt cfg remote localEntries hc,
    performFullSync_pushed_eq pt cfg remote localEntries hc, ?_⟩
  rw [performFullSync_result_eq pt cfg remote localEntries hc]
  have h := List.sorted_mergeSort (ptGe_trans pt) (ptGe_total pt)
    (localEntries ++ remote.filter
      (fun r => decide (r.timestamp ∉ localEntries.map LogEntry.timestamp)))
  exact h.imp (fun hab => by simpa [ptGe] using hab)

theorem C1_witness :
    (performFullSync (fun _ => 0) (some ⟨"tok", some "gid"⟩) true
        (some [⟨"2023-01-01T09:00:00Z", "B"⟩]) [⟨"2023-01-01T10:00:00Z", "A"⟩]).result
      = (([⟨"2023-01-01T10:00:00Z", "A"⟩] : Storage) ++
          ([⟨"2023-01-01T09:00:00Z", "B"⟩] : Storage).filter
            (fun r => decide (r.timestamp ∉
              ([⟨"2023-01-01T10:00:00Z", "A"⟩] : Storage).map LogEntry.timestamp))).mergeSort
          (ptGe (fun _ => 0)) :=
  (C1_fullSync_union_merge (fun _ => 0) (some ⟨"tok", some "gid"⟩)
    [⟨"2023-01-01T09:00:00Z", "B"⟩] [⟨"2023-01-01T10:00:00Z", "A"⟩] (by decide)).1

/-- Claim C2: starting from an idle state past the debounce window, two
back-to-back invocations of the background sync perform exactly one
`updateGist` call, whichever way the detached task interleaves with the
second call: if the task is still running, the `syncInProgress` flag skips
the second call; if it finished (successfully, at `tf`), the second call
falls inside the 5s debounce window and is skipped. -/
theorem C2_background_sync_debounce (s0 : SyncState) (t1 t2 tf : Nat)
    (hprog : s0.syncInProgress = false) (hcalls : s0.updateGistCalls = 0)
    (hdeb : s0.lastSyncTimestamp + SYNC_DEBOUNCE_MS ≤ t1)
    (h12 : t1 ≤ t2) (hwin : t2 < t1 + SYNC_DEBOUNCE_MS) (htf : t1 ≤ tf) :
    (bgTask true true true (bgCall (bgCall s0 t1) t2) tf).updateGistCalls = 1
  ∧ (bgCall (bgTask true true true (bgCall s0 t1) tf) t2).updateGistCalls = 1 := by
  have h1 : bgCall s0 t1 = { s0 with syncInProgress := true } := by
    unfold bgCall bgSkips
    rw [hprog]
    have hno : ¬ (t1 - s0.lastSyncTimestamp < SYNC_DEBOUNCE_MS) := by
      unfold SYNC_DEBOUNCE_MS at *
      omega
    simp [hno]
  constructor
  · rw [h1]
    have h2 : bgCall ({ s0 with syncInProgress := true }) t2
        = { s0 with syncInProgress := true } := by
      unfold bgCall bgSkips
      simp
    rw [h2]
    simp [bgTask, hcalls]
  · rw [h1]
    have h3 : bgTask true true true ({ s0 with syncInProgress := true }) tf
        = { syncInProgress := false, lastSyncTimestamp := tf,
            updateGistCalls := s0.updateGistCalls + 1 } := by
      simp [bgTask]
    rw [h3]
    have h4 : bgCall
        ({ syncInProgress := false, lastSyncTimestamp := tf,
           updateGistCalls := s0.updateGistCalls + 1 }) t2
        = { syncInProgress := false, lastSyncTimestamp := tf,
            updateGistCalls := s0.updateGistCalls + 1 } := by
      unfold bgCall bgSkips
      have hyes : t2 - tf < SYNC_DEBOUNCE_MS := by
        unfold SYNC_DEBOUNCE_MS at *
        omega
      simp [hyes]
    rw [h4, hcalls]

theorem C2_witness :
    (bgTask true true true (bgCall (bgCall ⟨false, 0, 0⟩ 5000) 5002) 5001).updateGistCalls = 1
  ∧ (bgCall (bgTask true true true (bgCall ⟨false, 0, 0⟩ 5000) 5001) 5002).updateGistCalls = 1 :=
  C2_background_sync_debounce ⟨false, 0, 0⟩ 5000 5002 5001 rfl rfl (by decide) (by decide)
    (by decide) (by decide)

/-- Claim C4 fails as stated: when the remote list contains two entries with
the same timestamp and that timestamp is already local, both remote copies
are dropped, so the merged length falls below the remote length.  Here
`local = [a@"a"]`, `remote = [x@"a", y@"a"]`, and the merge has length `1 <
max 1 2`. -/
theorem C4_counterexample :
    ¬ (max ([⟨"a", "L"⟩] : Storage).length ([⟨"a", "x"⟩, ⟨"a", "y"⟩] : Storage).length
        ≤ ((performFullSync (fun _ => 0) (some ⟨"tok", some "gid"⟩) true
            (some [⟨"a", "x"⟩, ⟨"a", "y"⟩]) [⟨"a", "L"⟩]).result).length) := by
  rw [performFullSync_result_eq (fun _ => 0) (some ⟨"tok", some "gid"⟩)
    [⟨"a", "x"⟩, ⟨"a", "y"⟩] [⟨"a", "L"⟩] (by decide)]
  rw [List.length_mergeSort]
  decide

/-- Claim C4 (amended with the duplicate-freedom the counterexample forces):
provided the remote list contains no two entries with the same timestamp,
the merge of `performFullSync` never drops data — every timestamp present in
either input is present in the output, and the output's length is at least
the maximum of the two input lengths. -/
theorem C4_union_never_drops (pt : String → Int) (cfg : Option GistConfig)
    (localEntries remote : Storage) (hc : configReady cfg = true)
    (hnd : (remote.map LogEntry.timestamp).Nodup) :
    (∀ ts : String,
        ts ∈ localEntries.map LogEntry.timestamp ∨ ts ∈ remote.map LogEntry.timestamp →
        ts ∈ ((performFullSync pt cfg true (some remote) localEntries).result).map
          LogEntry.timestamp)
  ∧ max localEntries.length remote.length
      ≤ ((performFullSync pt cfg true (some remote) localEntries).result).length := by
  have hres := performFullSync_result_eq pt cfg remote localEntries hc
  have hperm : ((performFullSync pt cfg true (some remote) localEntries).result).Perm
      (localEntries ++ remote.filter
        (fun r => decide (r.timestamp ∉ localEntries.map LogEntry.timestamp))) := by
    rw [hres]
    exact List.mergeSort_perm _ _
  have hmap := hperm.map LogEntry.timestamp
  have hmem : ∀ ts : String,
      ts ∈ localEntries.map LogEntry.timestamp ∨ ts ∈ remote.map LogEntry.timestamp →
      ts ∈ ((performFullSync pt cfg true (some remote) localEntries).result).map
        LogEntry.timestamp := by
    intro ts h
    apply hmap.mem_iff.mpr
    rw [List.map_append]
    rcases h with h | h
    · exact List.mem_append_left _ h
    · obtain ⟨r, hr, rfl⟩ := List.mem_map.mp h
      by_cases hin : r.timestamp ∈ localEntries.map LogEntry.timestamp
      · exact List.mem_append_left _ hin
      · refine List.mem_append_right _ (List.mem_map.mpr
          ⟨r, List.mem_filter.mpr ⟨hr, by simpa using hin⟩, rfl⟩)
  refine ⟨hmem, max_le ?_ ?_⟩
  · have hlen := hperm.length_eq
    rw [List.length_append] at hlen
    omega
  · have hsub : (remote.map LogEntry.timestamp).toFinset ⊆
        (((performFullSync pt cfg true (some remote) localEntries).result).map
          LogEntry.timestamp).toFinset := by
      intro ts hts
      rw [List.mem_toFinset] at hts ⊢
      exact hmem ts (Or.inr hts)
    calc remote.length
        = (remote.map LogEntry.timestamp).length := (List.length_map _ _).symm
      _ = (remote.map LogEntry.timestamp).toFinset.card :=
          (List.toFinset_card_of_nodup hnd).symm
      _ ≤ (((performFullSync pt cfg true (some remote) localEntries).result).map
            LogEntry.timestamp).toFinset.card := Finset.card_le_card hsub
      _ ≤ (((performFullSync pt cfg true (some remote) localEntries).result).map
            LogEntry.timestamp).length := List.toFinset_card_le _
      _ = _ := List.length_map _ _

theorem C4_witness :
    max ([⟨"2023-01-01T10:00:00Z", "A"⟩] : Storage).length
        ([⟨"2023-01-01T09:00:00Z", "B"⟩] : Storage).length
      ≤ ((performFullSync (fun _ => 0) (some ⟨"tok", some "gid"⟩) true
          (some [⟨"2023-01-01T09:00:00Z", "B"⟩]) [⟨"2023-01-01T10:00:00Z", "A"⟩]).result).length :=
  (C4_union_never_drops (fun _ => 0) (some ⟨"tok", some "gid"⟩)
    [⟨"2023-01-01T10:00:00Z", "A"⟩] [⟨"2023-01-01T09:00:00Z", "B"⟩]
    (by decide) (by decide)).2

/-- Claim C5: `performFullSync` is idempotent — with no intervening remote
change, the second call (whose fetch returns exactly what the first call
pushed, run on the first call's result) returns the same entry list and
pushes the same list again. -/
theorem C5_fullSync_idempotent (pt : String → Int) (cfg : Option GistConfig)
    (remote localEntries : Storage) (hc : configReady cfg = true) :
    performFullSync pt cfg true
        (some ((performFullSync pt cfg true (some remote) localEntries).result))
        ((performFullSync pt cfg true (some remote) localEntries).result)
      = { result := (performFullSync pt cfg true (some remote) localEntries).result,
          pushed := some ((performFullSync pt cfg true (some remote) localEntries).result) } := by
  apply performFullSync_self pt cfg _ hc
  rw [performFullSync_result_eq pt cfg remote localEntries hc]
  exact List.sorted_mergeSort (ptGe_trans pt) (ptGe_total pt) _

theorem C5_witness :
    performFullSync (fun _ => 0) (some ⟨"tok", some "gid"⟩) true
        (some ((performFullSync (fun _ => 0) (some ⟨"tok", some "gid"⟩) true
          (some [⟨"2023-01-01T09:00:00Z", "B"⟩]) [⟨"2023-01-01T10:00:00Z", "A"⟩]).result))
        ((performFullSync (fun _ => 0) (some ⟨"tok", some "gid"⟩) true
          (some [⟨"2023-01-01T09:00:00Z", "B"⟩]) [⟨"2023-01-01T10:00:00Z", "A"⟩]).result)
      = { result := (performFullSync (fun _ => 0) (some ⟨"tok", some "gid"⟩) true
            (some [⟨"2023-01-01T09:00:00Z", "B"⟩]) [⟨"2023-01-01T10:00:00Z", "A"⟩]).result,
          pushed := some ((performFullSync (fun _ => 0) (some ⟨"tok", some "gid"⟩) true
            (some [⟨"2023-01-01T09:00:00Z", "B"⟩])
            [⟨"2023-01-01T10:00:00Z", "A"⟩]).result) } :=
  C5_fullSync_idempotent (fun _ => 0) (some ⟨"tok", some "gid"⟩)
    [⟨"2023-01-01T09:00:00Z", "B"⟩] [⟨"2023-01-01T10:00:00Z", "A"⟩] (by decide)

/-- Claim C6: if sync is unconfigured (no config file, or missing/empty token
or gist id) or the connectivity check reports offline, `performFullSync`
returns the local entries unchanged and issues no remote operation. -/
theorem C6_fullSync_noop_unconfigured_or_offline (pt : String → Int)
    (cfg : Option GistConfig) (online : Bool) (fetched : Option Storage)
    (localEntries : Storage) (h : configReady cfg = false ∨ online = false) :
    performFullSync pt cfg online fetched localEntries
      = { result := localEntries, pushed := none } := by
  rcases h with h | h
  · simp [performFullSync, h]
  · subst h
    by_cases hc : configReady cfg = false
    · simp [performFullSync, hc]
    · simp [performFullSync, hc]

theorem C6_witness :
    performFullSync (fun _ => 0) none true none [⟨"2023-01-01T10:00:00Z", "A"⟩]
      = { result := [⟨"2023-01-01T10:00:00Z", "A"⟩], pushed := none } :=
  C6_fullSync_noop_unconfigured_or_offline (fun _ => 0) none true none
    [⟨"2023-01-01T10:00:00Z", "A"⟩] (Or.inl (by decide))

/-- Claim C3: for every entry sequence (with well-formed ISO timestamps,
whose date key is the 10-character `YYYY-MM-DD` prefix as the data model
prescribes), grouping by date, sorting each group ascending by timestamp and
concatenating the groups in ascending date-key order yields exactly the
whole sequence stably sorted ascending by timestamp; in particular the most
recent entry of each day appears last in its group. -/
theorem C3_grouping_reproduces_sorted (entries : Storage)
    (hv : ∀ e ∈ entries, (entryDate e).length = 10) :
    listedEntries entries false none = entries.mergeSort tsLe := by
  have hS : List.Pairwise (fun x y => tsLe x y = true) (entries.mergeSort tsLe) :=
    List.sorted_mergeSort tsLe_trans tsLe_total entries
  have step1 : listedEntries entries false none
      = (sortedDates entries false).flatMap
          (fun k => (entries.mergeSort tsLe).filter (fun e => entryDate e == k)) := by
    show (sortedDates entries false).flatMap (dayGroupAsc entries)
        = (sortedDates entries false).flatMap
            (fun k => (entries.mergeSort tsLe).filter (fun e => entryDate e == k))
    apply flatMap_congr
    intro k _
    exact (filter_mergeSort tsLe tsLe_trans tsLe_total _ entries).symm
  rw [step1]
  apply flat_groups_eq
  · have hle : List.Pairwise (fun a b => dateLe false a b = true) (sortedDates entries false) :=
      List.sorted_mergeSort (dateLe_trans' false) (dateLe_total false) _
    have hnd : (sortedDates entries false).Nodup :=
      ((List.mergeSort_perm _ _).nodup_iff).mpr (List.nodup_dedup _)
    exact (pairwise_and hle hnd).imp (fun h => ⟨by simpa [dateLe] using h.1, h.2⟩)
  · intro e he
    have he' : e ∈ entries := List.mem_mergeSort.mp he
    have hkey : entryDate e ∈ groupKeys entries := by
      rw [groupKeys, List.mem_dedup]
      exact List.mem_map.mpr ⟨e, he', rfl⟩
    exact ((List.mergeSort_perm _ _).mem_iff).mpr hkey
  · exact hS
  · intro x hx y hy hxy
    exact getDatePart_mono (hv x (List.mem_mergeSort.mp hx))
      (hv y (List.mem_mergeSort.mp hy)) hxy

theorem C3_witness :
    listedEntries [⟨"2024-01-02T08:00:00Z", "d2"⟩, ⟨"2024-01-01T09:00:00Z", "d1a"⟩,
        ⟨"2024-01-03T07:00:00Z", "d3"⟩, ⟨"2024-01-01T10:00:00Z", "d1b"⟩] false none
      = ([⟨"2024-01-02T08:00:00Z", "d2"⟩, ⟨"2024-01-01T09:00:00Z", "d1a"⟩,
          ⟨"2024-01-03T07:00:00Z", "d3"⟩, ⟨"2024-01-01T10:00:00Z", "d1b"⟩] : Storage).mergeSort
          tsLe :=
  C3_grouping_reproduces_sorted
    [⟨"2024-01-02T08:00:00Z", "d2"⟩, ⟨"2024-01-01T09:00:00Z", "d1a"⟩,
      ⟨"2024-01-03T07:00:00Z", "d3"⟩, ⟨"2024-01-01T10:00:00Z", "d1b"⟩] (by decide)

/-- Claim C9: a positive `--limit n` truncates the number of distinct days
displayed — it shows `min n (number of distinct days)` day groups — and the
displayed entries are (up to the displayed ordering) exactly all entries of
the retained days, never a per-entry truncation: every entry whose day is
retained is displayed. -/
theorem C9_limit_truncates_days (entries : Storage) (reverse : Bool) (n : Nat)
    (hn : 0 < n) :
    (applyLimit (some n) (sortedDates entries reverse)).length
        = min n (groupKeys entries).length
  ∧ (listedEntries entries reverse (some n)).Perm
      (entries.filter
        (fun e => (applyLimit (some n) (sortedDates entries reverse)).contains
          (entryDate e))) := by
  have happ : applyLimit (some n) (sortedDates entries reverse)
      = (sortedDates entries reverse).take n := by
    simp [applyLimit, hn]
  constructor
  · rw [happ, List.length_take]
    have : (sortedDates entries reverse).length = (groupKeys entries).length :=
      (List.mergeSort_perm _ _).length_eq
    omega
  · have hnd : (applyLimit (some n) (sortedDates entries reverse)).Nodup := by
      rw [happ]
      exact List.Nodup.sublist (List.take_sublist _ _)
        (((List.mergeSort_perm _ _).nodup_iff).mpr (List.nodup_dedup _))
    have h1 : (listedEntries entries reverse (some n)).Perm
        ((applyLimit (some n) (sortedDates entries reverse)).flatMap
          (fun k => entries.filter (fun e => entryDate e == k))) := by
      apply flatMap_perm_congr
      intro k _
      exact List.mergeSort_perm _ _
    exact h1.trans (flatMap_filter_perm entries _ hnd)

theorem C9_witness :
    (applyLimit (some 1) (sortedDates
        [⟨"2024-01-02T08:00:00Z", "d2"⟩, ⟨"2024-01-01T09:00:00Z", "d1a"⟩,
          ⟨"2024-01-03T07:00:00Z", "d3"⟩, ⟨"2024-01-01T10:00:00Z", "d1b"⟩] false)).length
        = min 1 (groupKeys
            [⟨"2024-01-02T08:00:00Z", "d2"⟩, ⟨"2024-01-01T09:00:00Z", "d1a"⟩,
              ⟨"2024-01-03T07:00:00Z", "d3"⟩, ⟨"2024-01-01T10:00:00Z", "d1b"⟩]).length
  ∧ (listedEntries
        [⟨"2024-01-02T08:00:00Z", "d2"⟩, ⟨"2024-01-01T09:00:00Z", "d1a"⟩,
          ⟨"2024-01-03T07:00:00Z", "d3"⟩, ⟨"2024-01-01T10:00:00Z", "d1b"⟩] false
        (some 1)).Perm
      (([⟨"2024-01-02T08:00:00Z", "d2"⟩, ⟨"2024-01-01T09:00:00Z", "d1a"⟩,
          ⟨"2024-01-03T07:00:00Z", "d3"⟩, ⟨"2024-01-01T10:00:00Z", "d1b"⟩] : Storage).filter
        (fun e => (applyLimit (some 1) (sortedDates
            [⟨"2024-01-02T08:00:00Z", "d2"⟩, ⟨"2024-01-01T09:00:00Z", "d1a"⟩,
              ⟨"2024-01-03T07:00:00Z", "d3"⟩, ⟨"2024-01-01T10:00:00Z", "d1b"⟩]
            false)).contains (entryDate e))) :=
  C9_limit_truncates_days
    [⟨"2024-01-02T08:00:00Z", "d2"⟩, ⟨"2024-01-01T09:00:00Z", "d1a"⟩,
      ⟨"2024-01-03T07:00:00Z", "d3"⟩, ⟨"2024-01-01T10:00:00Z", "d1b"⟩] false 1
    (by decide)

/-- Concrete evaluation of `removeLastEntry`'s sort on a stored sequence that
is not timestamp-ordered. -/
theorem sortedAllDesc_example :
    sortedAllDesc [⟨"2024-01-01T01:00:00Z", "a"⟩, ⟨"2024-01-01T03:00:00Z", "c"⟩,
        ⟨"2024-01-01T02:00:00Z", "b"⟩]
      = [⟨"2024-01-01T03:00:00Z", "c"⟩, ⟨"2024-01-01T02:00:00Z", "b"⟩,
          ⟨"2024-01-01T01:00:00Z", "a"⟩] := by
  refine @List.Perm.eq_of_sorted LogEntry (fun a b => tsGe a b = true) _ _ ?_ ?_ ?_ ?_
  · intro a b ha hb h1 h2
    have ha' : a ∈ ([⟨"2024-01-01T01:00:00Z", "a"⟩, ⟨"2024-01-01T03:00:00Z", "c"⟩,
        ⟨"2024-01-01T02:00:00Z", "b"⟩] : Storage) := List.mem_mergeSort.mp ha
    fin_cases ha' <;> fin_cases hb <;> revert h1 h2 <;> decide
  · exact List.sorted_mergeSort tsGe_trans tsGe_total _
  · decide
  · exact (List.mergeSort_perm _ _).trans (by decide)

/-- Claim C7 fails as stated on `removeLastEntry`: that code path sorts the
whole array descending in place before slicing, so the written document is
not the previous sequence filtered — survivors are reordered.  Stored
sequence `[a@01, c@03, b@02]`: the removed entry is `c@03`, the filter of the
previous sequence is `[a@01, b@02]`, but the code writes `[b@02, a@01]`. -/
theorem C7_counterexample :
    lastEntry [⟨"2024-01-01T01:00:00Z", "a"⟩, ⟨"2024-01-01T03:00:00Z", "c"⟩,
        ⟨"2024-01-01T02:00:00Z", "b"⟩] = some ⟨"2024-01-01T03:00:00Z", "c"⟩
  ∧ removeLastResult [⟨"2024-01-01T01:00:00Z", "a"⟩, ⟨"2024-01-01T03:00:00Z", "c"⟩,
        ⟨"2024-01-01T02:00:00Z", "b"⟩]
      ≠ ([⟨"2024-01-01T01:00:00Z", "a"⟩, ⟨"2024-01-01T03:00:00Z", "c"⟩,
          ⟨"2024-01-01T02:00:00Z", "b"⟩] : Storage).filter
        (fun e => !(e.timestamp == "2024-01-01T03:00:00Z")) := by
  constructor
  · show (sortedAllDesc _).head? = _
    rw [sortedAllDesc_example]
    rfl
  · show (sortedAllDesc _).tail ≠ _
    rw [sortedAllDesc_example]
    decide

/-- Claim C7 (amended): removing one entry by timestamp and removing a whole
day write back exactly the previous sequence with the matching entries
deleted — a filter, so survivors keep their stored relative order (a
sublist).  Removing the last entry instead writes back the previous entries
sorted descending by timestamp with a greatest-timestamp entry (the reported
one) removed: the surviving entries are preserved as a multiset but not
necessarily in their previous stored order. -/
theorem C7_remove_write_back (entries : Storage) (ts d : String) {e : LogEntry}
    (he : lastEntry entries = some e) :
    (List.Sublist (removeByTimestamp entries ts) entries
      ∧ ∀ x ∈ entries, (x ∈ removeByTimestamp entries ts ↔ x.timestamp ≠ ts))
  ∧ (List.Sublist (removeAllForDay entries d) entries
      ∧ ∀ x ∈ entries, (x ∈ removeAllForDay entries d ↔ entryDate x ≠ d))
  ∧ ((e :: removeLastResult entries).Perm entries
      ∧ ∀ x ∈ entries, strLe x.timestamp e.timestamp = true) := by
  refine ⟨⟨List.filter_sublist _, ?_⟩, ⟨List.filter_sublist _, ?_⟩,
    removeLast_perm he, lastEntry_max he⟩
  · intro x hx
    constructor
    · intro hmem
      have := List.of_mem_filter hmem
      simpa using this
    · intro hne
      exact List.mem_filter.mpr ⟨hx, by simpa using hne⟩
  · intro x hx
    constructor
    · intro hmem
      have := List.of_mem_filter hmem
      simpa using this
    · intro hne
      exact List.mem_filter.mpr ⟨hx, by simpa using hne⟩

theorem C7_witness :
    List.Sublist
      (removeByTimestamp [⟨"2024-01-01T02:00:00Z", "b"⟩, ⟨"2024-01-01T01:00:00Z", "a"⟩]
        "2024-01-01T01:00:00Z")
      [⟨"2024-01-01T02:00:00Z", "b"⟩, ⟨"2024-01-01T01:00:00Z", "a"⟩]
  ∧ ((⟨"2024-01-01T02:00:00Z", "b"⟩ : LogEntry) ::
      removeLastResult [⟨"2024-01-01T02:00:00Z", "b"⟩, ⟨"2024-01-01T01:00:00Z", "a"⟩]).Perm
      [⟨"2024-01-01T02:00:00Z", "b"⟩, ⟨"2024-01-01T01:00:00Z", "a"⟩] := by
  have hpw : List.Pairwise (fun a b => tsGe a b = true)
      ([⟨"2024-01-01T02:00:00Z", "b"⟩, ⟨"2024-01-01T01:00:00Z", "a"⟩] : Storage) := by
    decide
  have he : lastEntry ([⟨"2024-01-01T02:00:00Z", "b"⟩,
      ⟨"2024-01-01T01:00:00Z", "a"⟩] : Storage) = some ⟨"2024-01-01T02:00:00Z", "b"⟩ := by
    show (List.mergeSort _ tsGe).head? = _
    rw [List.mergeSort_of_sorted hpw]
    rfl
  exact ⟨(C7_remove_write_back _ "2024-01-01T01:00:00Z" "2024-01-01" he).1.1,
    (C7_remove_write_back _ "2024-01-01T01:00:00Z" "2024-01-01" he).2.2.1⟩

/-- Claim C8: `removeLastEntry` (when confirmed) removes an entry carrying a
greatest timestamp; in particular from `[{t:T1},{t:T2}]` with `T2 > T1` it
reports and removes the `T2` entry, leaving `[{t:T1}]` in storage. -/
theorem C8_removeLast_removes_greatest :
    (∀ (entries : Storage) (e : LogEntry), lastEntry entries = some e →
        ∀ x ∈ entries, strLe x.timestamp e.timestamp = true)
  ∧ (∀ e1 e2 : LogEntry, strLe e2.timestamp e1.timestamp = false →
        lastEntry [e1, e2] = some e2 ∧ removeLastResult [e1, e2] = [e1]) := by
  constructor
  · intro entries e he
    exact lastEntry_max he
  · intro e1 e2 h
    have hge : tsGe e2 e1 = true := by
      have htot := strLe_total e1.timestamp e2.timestamp
      show strLe e1.timestamp e2.timestamp = true
      rcases Bool.or_eq_true_iff.mp htot with h' | h'
      · exact h'
      · exact absurd h' (by simp [h])
    have hsv : sortedAllDesc [e1, e2] = [e2, e1] := by
      refine @List.Perm.eq_of_sorted LogEntry (fun a b => tsGe a b = true) _ _ ?_ ?_ ?_ ?_
      · intro a b ha hb h1 h2
        have ha' : a ∈ ([e1, e2] : Storage) := List.mem_mergeSort.mp ha
        rcases List.mem_cons.mp ha' with rfl | ha''
        · rcases List.mem_cons.mp hb with rfl | hb'
          · simp [tsGe, h] at h1
          · have hb'' : b = a := by simpa using hb'
            rw [hb'']
        · have ha3 : a = e2 := by simpa using ha''
          subst ha3
          rcases List.mem_cons.mp hb with rfl | hb'
          · rfl
          · have hb'' : b = e1 := by simpa using hb'
            subst hb''
            simp [tsGe, h] at h2
      · exact List.sorted_mergeSort tsGe_trans tsGe_total _
      · refine List.pairwise_cons.mpr ⟨?_, List.pairwise_singleton _ _⟩
        intro b hb
        have hb' : b = e1 := by simpa using hb
        subst hb'
        exact hge
      · exact (List.mergeSort_perm _ _).trans (List.Perm.swap e2 e1 [])
    constructor
    · show (sortedAllDesc [e1, e2]).head? = some e2
      rw [hsv]
      rfl
    · show (sortedAllDesc [e1, e2]).tail = [e1]
      rw [hsv]
      rfl

theorem C8_witness :
    lastEntry [⟨"2024-01-01T01:00:00Z", "a"⟩, ⟨"2024-01-01T02:00:00Z", "b"⟩]
        = some ⟨"2024-01-01T02:00:00Z", "b"⟩
  ∧ removeLastResult [⟨"2024-01-01T01:00:00Z", "a"⟩, ⟨"2024-01-01T02:00:00Z", "b"⟩]
        = [⟨"2024-01-01T01:00:00Z", "a"⟩] :=
  C8_removeLast_removes_greatest.2 ⟨"2024-01-01T01:00:00Z", "a"⟩
    ⟨"2024-01-01T02:00:00Z", "b"⟩ (by decide)

/-- Concrete selection-list lookup in a day whose two entries share one
timestamp. -/
theorem sortedForRemoval_dup_lookup :
    (sortedForRemoval [⟨"2024-01-01T05:00:00Z", "x"⟩, ⟨"2024-01-01T05:00:00Z", "y"⟩,
        ⟨"2024-01-02T06:00:00Z", "z"⟩] "2024-01-01")[0]?
      = some ⟨"2024-01-01T05:00:00Z", "x"⟩ := by
  have hpw : List.Pairwise (fun a b => tsGe a b = true)
      ([⟨"2024-01-01T05:00:00Z", "x"⟩, ⟨"2024-01-01T05:00:00Z", "y"⟩] : Storage) := by
    decide
  have hg : groupOf [⟨"2024-01-01T05:00:00Z", "x"⟩, ⟨"2024-01-01T05:00:00Z", "y"⟩,
      ⟨"2024-01-02T06:00:00Z", "z"⟩] "2024-01-01"
      = [⟨"2024-01-01T05:00:00Z", "x"⟩, ⟨"2024-01-01T05:00:00Z", "y"⟩] := by
    decide
  show ((groupOf _ _).mergeSort tsGe)[0]? = _
  rw [hg, List.mergeSort_of_sorted hpw]
  rfl

/-- Claim C10: removing one selected entry deletes every stored entry whose
timestamp string equals the selected entry's timestamp (survivors keep their
relative order), so when several entries share one timestamp the stored list
can shrink by more than one entry. -/
theorem C10_removeSelected_removes_all_equal (entries : Storage) (d : String)
    (idx : Nat) (sel : LogEntry)
    (hsel : (sortedForRemoval entries d)[idx]? = some sel) :
    (∀ x ∈ removeSelected entries d idx, x.timestamp ≠ sel.timestamp)
  ∧ (∀ x ∈ entries, x.timestamp ≠ sel.timestamp → x ∈ removeSelected entries d idx)
  ∧ List.Sublist (removeSelected entries d idx) entries
  ∧ ∃ (es : Storage) (d' : String) (i : Nat) (s : LogEntry),
      (sortedForRemoval es d')[i]? = some s
      ∧ es.length = (removeSelected es d' i).length + 2 := by
  have hred : removeSelected entries d idx = removeByTimestamp entries sel.timestamp := by
    unfold removeSelected
    rw [hsel]
  refine ⟨?_, ?_, ?_, ?_⟩
  · intro x hx
    rw [hred] at hx
    have := List.of_mem_filter hx
    simpa using this
  · intro x hx hne
    rw [hred]
    exact List.mem_filter.mpr ⟨hx, by simpa using hne⟩
  · rw [hred]
    exact List.filter_sublist _
  · refine ⟨[⟨"2024-01-01T05:00:00Z", "x"⟩, ⟨"2024-01-01T05:00:00Z", "y"⟩,
      ⟨"2024-01-02T06:00:00Z", "z"⟩], "2024-01-01", 0,
      ⟨"2024-01-01T05:00:00Z", "x"⟩, sortedForRemoval_dup_lookup, ?_⟩
    have hred' : removeSelected [⟨"2024-01-01T05:00:00Z", "x"⟩,
        ⟨"2024-01-01T05:00:00Z", "y"⟩, ⟨"2024-01-02T06:00:00Z", "z"⟩] "2024-01-01" 0
        = removeByTimestamp [⟨"2024-01-01T05:00:00Z", "x"⟩,
            ⟨"2024-01-01T05:00:00Z", "y"⟩, ⟨"2024-01-02T06:00:00Z", "z"⟩]
            "2024-01-01T05:00:00Z" := by
      unfold removeSelected
      rw [sortedForRemoval_dup_lookup]
    rw [hred']
    decide

theorem C10_witness :
    (sortedForRemoval [⟨"2024-01-01T05:00:00Z", "x"⟩, ⟨"2024-01-01T05:00:00Z", "y"⟩,
        ⟨"2024-01-02T06:00:00Z", "z"⟩] "2024-01-01")[0]?
      = some ⟨"2024-01-01T05:00:00Z", "x"⟩
  ∧ List.Sublist
      (removeSelected [⟨"2024-01-01T05:00:00Z", "x"⟩, ⟨"2024-01-01T05:00:00Z", "y"⟩,
        ⟨"2024-01-02T06:00:00Z", "z"⟩] "2024-01-01" 0)
      [⟨"2024-01-01T05:00:00Z", "x"⟩, ⟨"2024-01-01T05:00:00Z", "y"⟩,
        ⟨"2024-01-02T06:00:00Z", "z"⟩] :=
  ⟨sortedForRemoval_dup_lookup,
    (C10_removeSelected_removes_all_equal
      [⟨"2024-01-01T05:00:00Z", "x"⟩, ⟨"2024-01-01T05:00:00Z", "y"⟩,
        ⟨"2024-01-02T06:00:00Z", "z"⟩] "2024-01-01" 0
      ⟨"2024-01-01T05:00:00Z", "x"⟩ sortedForRemoval_dup_lookup).2.2.1⟩

end LG
